import Mathlib

/-!
Verification development for the kitty-album terminal image browser
(`album.py`).  The Python source is shallowly embedded below:

* pure helpers (`get_w_x_h`, fingerprint construction) become Lean
  functions over strings and numbers;
* Python `float` arithmetic in `ImageScaler.scale`'s zoom adjustment is
  modelled exactly as IEEE-754 binary64 round-to-nearest-even arithmetic
  over dyadic rationals (mantissa × 2^exponent pairs of naturals);
* the scaler's `_store` dict becomes an insertion-ordered association
  list, and its operations (`scale`, `stop`, `teardown`) become state
  transformers;
* the worker thread's `run` body becomes a function from its inputs
  (image geometry, window-measurement outcome) to its final field values
  plus a trace of the effects it performs;
* the `Album` navigation state (file list, current index, zoom level)
  becomes a record, with `display()` modelled as an event counter.

Exceptions are modelled with `Except`; a raised exception propagates
before any subsequent state mutation, exactly as in the source.
-/

/-- Python exceptions that the embedded code can raise.  `scalingError`
is the classified `ScalingError`; `valueError` stands for the unhandled
`ValueError`/unpacking errors `int()` and tuple destructuring can raise. -/
inductive PyError where
  | scalingError (msg : String)
  | valueError
deriving DecidableEq, Repr

/-- A `pathlib.Path` value as the embedded code observes it: the full
path (`str(file)`), the display name (`file.name`, the final component)
and the suffix (`file.suffix`).  Distinct paths can share a name. -/
structure PyFile where
  path : String
  name : String
  suffix : String
deriving DecidableEq, Repr

/-- Python `str.split(sep)` on a list of characters (always returns at
least one, possibly empty, group). -/
def pySplitOn (sep : Char) : List Char → List (List Char)
  | [] => [[]]
  | c :: rest =>
    let r := pySplitOn sep rest
    if c = sep then [] :: r
    else
      match r with
      | [] => [[c]]
      | g :: gs => (c :: g) :: gs

/-- Value of a decimal digit character, `none` otherwise. -/
def pyDigit? (c : Char) : Option ℕ :=
  if '0' ≤ c ∧ c ≤ '9' then some (c.toNat - '0'.toNat) else none

def pyParseNatCore : ℕ → List Char → Option ℕ
  | acc, [] => some acc
  | acc, c :: cs =>
    match pyDigit? c with
    | some d => pyParseNatCore (acc * 10 + d) cs
    | none => none

/-- Python `int(s)` restricted to the nonnegative digit strings the
external tools emit (`identify -format "%wx%h"`, `--print-window-size`);
a malformed token yields `none`, which the caller turns into the
uncaught `ValueError` of the source. -/
def pyParseNat (s : List Char) : Option ℕ :=
  if s.isEmpty then none else pyParseNatCore 0 s

/-- `HelpersMixin.get_w_x_h`: runs `cmd`, polls the exit `status`, and
raises `ScalingError` on a nonzero status, otherwise returns
`map(int, out.split('x'))`.  The external process is represented by the
exit status and standard output it produced. -/
def get_w_x_h (cmd : String) (status : ℤ) (out : String) :
    Except PyError (List (Option ℕ)) :=
  if status ≠ 0 then
    .error (.scalingError ("Command \"" ++ cmd ++ "\" failed with exit code " ++ toString status))
  else
    .ok ((pySplitOn 'x' out.data).map pyParseNat)

/-- The destructuring `w, h = map(int, ...)`: exactly two well-formed
integers, anything else raises. -/
def unpack2 (l : List (Option ℕ)) : Except PyError (ℕ × ℕ) :=
  match l with
  | [some a, some b] => .ok (a, b)
  | _ => .error .valueError

/-- Measurement step shared by `scale` (image dimensions) and
`ImageScalerThread.run` (window size): run the command and parse
`<width>x<height>`. -/
def measureWxH (cmd : String) (status : ℤ) (out : String) :
    Except PyError (ℕ × ℕ) :=
  (get_w_x_h cmd status out).bind unpack2

/-! ### IEEE-754 binary64 model

Python `float` arithmetic is binary64 with round-to-nearest,
ties-to-even.  All values arising in `scale`'s zoom adjustment are
positive and well inside the normal range, so the model below (which
ignores overflow/subnormals) is exact for them.  A float is represented
by a dyadic pair `(mantissa, exponent) : ℕ × ℤ` with value
`mantissa * 2 ^ exponent`. -/

/-- Fuel-driven floor-log₂ (the fuel only bounds the recursion depth;
`natLog2 n` below supplies `n` itself, which is always enough). -/
def log2f : ℕ → ℕ → ℕ
  | 0, _ => 0
  | fuel + 1, n => if 2 ≤ n then log2f fuel (n / 2) + 1 else 0

/-- `⌊log₂ n⌋` for `n ≥ 1`. -/
def natLog2 (n : ℕ) : ℕ := log2f n n

/-- `⌊log₂ (num / den)⌋` for `num, den ≥ 1`. -/
def ratLog2 (num den : ℕ) : ℤ :=
  let l0 : ℤ := (natLog2 num : ℤ) - (natLog2 den : ℤ)
  if (if 0 ≤ l0 then den * 2 ^ l0.toNat ≤ num else den ≤ num * 2 ^ (-l0).toNat)
  then l0 else l0 - 1

/-- Round `a / d` to the nearest integer, ties to even. -/
def rdivNE (a d : ℕ) : ℕ :=
  if 2 * (a % d) < d then a / d
  else if d < 2 * (a % d) then a / d + 1
  else if (a / d) % 2 = 0 then a / d else a / d + 1

/-- Round the nonnegative rational `num / den` to the nearest binary64
value (53-bit mantissa, ties to even), as a dyadic pair. -/
def flPair (num den : ℕ) : ℕ × ℤ :=
  if num = 0 then (0, 0)
  else if 0 ≤ ratLog2 num den - 52 then
    (rdivNE num (den * 2 ^ (ratLog2 num den - 52).toNat), ratLog2 num den - 52)
  else
    (rdivNE (num * 2 ^ (-(ratLog2 num den - 52)).toNat) den, ratLog2 num den - 52)

/-- Round the dyadic value `n * 2 ^ e` to binary64 (scaling by a power
of two commutes with rounding). -/
def flDyadic (n : ℕ) (e : ℤ) : ℕ × ℤ :=
  let r := flPair n 1
  (r.1, r.2 + e)

/-- Exact sum of two dyadic values. -/
def dyadicAdd (p q : ℕ × ℤ) : ℕ × ℤ :=
  let m := min p.2 q.2
  (p.1 * 2 ^ (p.2 - m).toNat + q.1 * 2 ^ (q.2 - m).toNat, m)

/-- `int(x)` of a nonnegative dyadic value (truncation = floor here). -/
def dyadicFloor (p : ℕ × ℤ) : ℕ :=
  if 0 ≤ p.2 then p.1 * 2 ^ p.2.toNat else p.1 / 2 ^ (-p.2).toNat

/-- The zoom adjustment of one dimension in `ImageScaler.scale`:
Python `int(b + (b / 100 * (zoom * 10)))` evaluated in binary64
(`b / 100` is float true division; `zoom * 10` is exact;
the int operand of `+` is converted to float first). -/
def pyZoomAdjust (b zoom : ℕ) : ℕ :=
  let fb := flPair b 1
  let q1 := flPair b 100
  let p2 := flDyadic (q1.1 * (zoom * 10)) q1.2
  dyadicFloor (flDyadic (dyadicAdd fb p2).1 (dyadicAdd fb p2).2)

/-- The spec's exact formula `base + base * zoom * 10 / 100`,
integer-truncated (natural division). -/
def specAdjust (b zoom : ℕ) : ℕ := b + b * zoom * 10 / 100

/-! ### The scaling worker (`ImageScalerThread`) -/

/-- `ImageScalerThread.menu_height`. -/
def menu_height : ℤ := 60

/-- Snapshot of an `ImageScalerThread`'s fields.  `tempFile` is the
`_scaled` temporary-file handle (its path) when one was created,
`tempClosed` records whether that handle has been closed (releasing the
file), `scaled` is the public result path. -/
structure Worker where
  file : PyFile
  iHeight : ℕ
  iWidth : ℕ
  zoom : ℕ
  stopped : Bool
  done : Bool
  scaled : Option String
  tempFile : Option String
  tempClosed : Bool
deriving DecidableEq, Repr

/-- A freshly constructed `ImageScalerThread(args=(file, i_height,
i_width, zoom))`, before/while its `run` executes. -/
def ImageScalerThread.init (file : PyFile) (iHeight iWidth zoom : ℕ) : Worker :=
  { file := file, iHeight := iHeight, iWidth := iWidth, zoom := zoom,
    stopped := false, done := false, scaled := none, tempFile := none,
    tempClosed := false }

/-- `ThreadMixin.stop`: sets the stopped flag. -/
def ThreadMixin.stop (w : Worker) : Worker := { w with stopped := true }

/-- Observable effects of one `ImageScalerThread.run` execution. -/
inductive RunEvent where
  | createTemp (name : String)
  | invokeResize (src : String) (width height : ℤ) (dest : String)
  | setDone
deriving DecidableEq, Repr

/-- `ImageScalerThread.run`.  Inputs beyond the worker's own fields: the
outcome (`wstatus`, `wout`) of `kitty icat --print-window-size`, and the
name the `NamedTemporaryFile` would get.  Returns the worker's final
field values (or the exception that killed the thread) together with the
trace of effects.  The polling loop between `invokeResize` and `setDone`
only sleeps and reads flags, so it contributes no events and mutates no
fields. -/
def ImageScalerThread.run (w : Worker) (wstatus : ℤ) (wout : String) (tmpName : String) :
    Except PyError Worker × List RunEvent :=
  match measureWxH "kitty icat --print-window-size" wstatus wout with
  | .error e => (.error e, [])
  | .ok (w_width, w_height) =>
    let width : ℤ := if (w.iWidth : ℤ) > (w_width : ℤ) then (w_width : ℤ) else (w.iWidth : ℤ)
    let height : ℤ :=
      if (w.iHeight : ℤ) > ((w_height : ℤ) - menu_height) then ((w_height : ℤ) - menu_height)
      else (w.iHeight : ℤ)
    if (w.iHeight : ℤ) > ((w_height : ℤ) - menu_height) ∨ w.zoom ≠ 0 then
      (.ok { w with tempFile := some tmpName, scaled := some tmpName, done := true },
        [.createTemp tmpName,
         .invokeResize w.file.path width height tmpName,
         .setDone])
    else
      (.ok { w with scaled := some w.file.path, done := true }, [.setDone])

/-! ### The scaling cache (`ImageScaler`) -/

/-- The `_store` dict: insertion-ordered association list from
fingerprint to worker. -/
abbrev Store := List (String × Worker)

/-- The `i_id` fingerprint `f'{file.name}_{i_width}_{i_height}'`. -/
def fingerprint (file : PyFile) (i_width i_height : ℕ) : String :=
  file.name ++ "_" ++ Nat.repr i_width ++ "_" ++ Nat.repr i_height

/-- The zoom adjustment guard in `scale`: dimensions are adjusted only
when `zoom > 0`. -/
def scaleDims (zoom w h : ℕ) : ℕ × ℕ :=
  if 0 < zoom then (pyZoomAdjust w zoom, pyZoomAdjust h zoom) else (w, h)

/-- The dimension-measurement command `scale` runs. -/
def identifyCmd (file : PyFile) : String :=
  "identify -ping -format \"%wx%h\" \"" ++ file.path ++ "\""

/-- `ImageScaler.scale`: measure the native size (the external outcome
is `status`/`out`), adjust for zoom, build the fingerprint; return it at
once if a worker is already stored, otherwise create, store and start a
new worker.  On a raised exception the store is untouched. -/
def ImageScaler.scale (store : Store) (file : PyFile) (zoom : ℕ) (status : ℤ) (out : String) :
    Except PyError String × Store :=
  match measureWxH (identifyCmd file) status out with
  | .error e => (.error e, store)
  | .ok (i_width0, i_height0) =>
    let wh := scaleDims zoom i_width0 i_height0
    let i_id := fingerprint file wh.1 wh.2
    if (store.lookup i_id).isSome then (.ok i_id, store)
    else (.ok i_id, store ++ [(i_id, ImageScalerThread.init file wh.2 wh.1 zoom)])

/-- `ImageScaler.get` (`KeyError` on an absent id is the outer `none`). -/
def ImageScaler.get (store : Store) (id : String) : Option (Option String) :=
  (store.lookup id).map (fun w => w.scaled)

/-- `ImageScaler.is_done`. -/
def ImageScaler.is_done (store : Store) (id : String) : Option Bool :=
  (store.lookup id).map (fun w => w.done)

/-- `ImageScaler.stop`: signal the identified worker, then delete its
entry (no-op here on an absent id, where Python raises `KeyError`). -/
def ImageScaler.stop (store : Store) (id : String) : Store :=
  (store.map (fun p => if p.1 = id then (p.1, ThreadMixin.stop p.2) else p)).filter
    (fun p => p.1 ≠ id)

/-- `ImageScaler.teardown`: close the `_scaled` temp-file handle of
every stored worker that has one, then clear the store.  Returns the
emptied store together with the final states of the discarded worker
threads (which keep running; `teardown` does not touch their flags). -/
def ImageScaler.teardown (store : Store) : Store × List Worker :=
  ([],
   store.map (fun p => if p.2.tempFile.isSome then { p.2 with tempClosed := true } else p.2))

/-- Scaler states reachable from the initial empty store through the
public operations. -/
inductive ScalerReachable : Store → Prop where
  | init : ScalerReachable []
  | scale (s : Store) (f : PyFile) (z : ℕ) (st : ℤ) (out : String) :
      ScalerReachable s → ScalerReachable (ImageScaler.scale s f z st out).2
  | stop (s : Store) (id : String) :
      ScalerReachable s → ScalerReachable (ImageScaler.stop s id)
  | teardown (s : Store) :
      ScalerReachable s → ScalerReachable (ImageScaler.teardown s).1

/-! ### The viewer (`Album`) navigation state -/

/-- The `Album` fields the navigation claims are about.  `displayCount`
counts the `self.display()` redisplay events. -/
structure AlbumState where
  files : List PyFile
  index : ℤ
  zoom_level : ℤ
  displayCount : ℕ
deriving DecidableEq, Repr

/-- The state right after `on_load(files, current_idx)` stored the file
list and index (`_zoom_level` still holds its initial 0). -/
def Album.initial (files : List PyFile) (idx : ℤ) : AlbumState :=
  { files := files, index := idx, zoom_level := 0, displayCount := 0 }

/-- `self.display()` as an observable event. -/
def Album.display (a : AlbumState) : AlbumState :=
  { a with displayCount := a.displayCount + 1 }

/-- The `index` property setter: only acts when the value changes, and
then stores it, resets the zoom level and redisplays. -/
def Album.setIndex (a : AlbumState) (value : ℤ) : AlbumState :=
  if value ≠ a.index then Album.display { a with index := value, zoom_level := 0 } else a

/-- `Album.remaining`: `len(self._files) - 1 - self.index`. -/
def Album.remaining (a : AlbumState) : ℤ :=
  (a.files.length : ℤ) - 1 - a.index

/-- `Album.can_zoom_in`: `10 >= self._zoom_level`. -/
def Album.can_zoom_in (a : AlbumState) : Bool :=
  decide (10 ≥ a.zoom_level)

/-- `Album.can_zoom_out`: `self._zoom_level > 0`. -/
def Album.can_zoom_out (a : AlbumState) : Bool :=
  decide (a.zoom_level > 0)

/-- `Album.zoom_in`. -/
def Album.zoom_in (a : AlbumState) : AlbumState :=
  Album.display { a with zoom_level := a.zoom_level + 1 }

/-- `Album.zoom_out`. -/
def Album.zoom_out (a : AlbumState) : AlbumState :=
  Album.display { a with zoom_level := a.zoom_level - 1 }

/-- `Album.has_next`: `len(self._files) > 1 and self.index <= len(self._files) - 2`. -/
def Album.has_next (a : AlbumState) : Bool :=
  decide (1 < a.files.length) && decide (a.index ≤ (a.files.length : ℤ) - 2)

/-- `Album.has_prev`: `self.index > 0`. -/
def Album.has_prev (a : AlbumState) : Bool :=
  decide (a.index > 0)

/-- `Album.goto_next`. -/
def Album.goto_next (a : AlbumState) : AlbumState :=
  if Album.has_next a then Album.setIndex a (a.index + 1) else a

/-- `Album.goto_prev`. -/
def Album.goto_prev (a : AlbumState) : AlbumState :=
  if Album.has_prev a then Album.setIndex a (a.index - 1) else a

/-- `Album.goto_first`. -/
def Album.goto_first (a : AlbumState) : AlbumState :=
  Album.setIndex a 0

/-- `Album.goto_last`. -/
def Album.goto_last (a : AlbumState) : AlbumState :=
  Album.setIndex a ((a.files.length : ℤ) - 1)

/-- Python list indexing `l[i]`, including the negative-index wrap;
`none` is an `IndexError`. -/
def pyGetItem {α : Type} (l : List α) (i : ℤ) : Option α :=
  if 0 ≤ i then l[i.toNat]?
  else if 0 ≤ i + (l.length : ℤ) then l[(i + (l.length : ℤ)).toNat]? else none

/-- `Album.current`: `self._files[self.index]`. -/
def Album.current (a : AlbumState) : Option PyFile :=
  pyGetItem a.files a.index

/-- One navigation input as the main loop handles it: the key handler is
guarded by `has_next` / `has_prev`. -/
inductive NavStep where
  | next
  | prev
deriving DecidableEq, Repr

def navStep (a : AlbumState) : NavStep → AlbumState
  | .next => if Album.has_next a then Album.goto_next a else a
  | .prev => if Album.has_prev a then Album.goto_prev a else a

/-- One zoom input as the main loop handles it: the key handler is
guarded by `can_zoom_in` / `can_zoom_out`. -/
inductive ZoomStep where
  | zin
  | zout
deriving DecidableEq, Repr

def zoomStep (a : AlbumState) : ZoomStep → AlbumState
  | .zin => if Album.can_zoom_in a then Album.zoom_in a else a
  | .zout => if Album.can_zoom_out a then Album.zoom_out a else a

/-! ### Album navigation and zoom theorems -/

theorem has_next_iff (a : AlbumState) :
    Album.has_next a = true ↔ 1 < a.files.length ∧ a.index ≤ (a.files.length : ℤ) - 2 := by
  simp [Album.has_next]

theorem has_prev_iff (a : AlbumState) :
    Album.has_prev a = true ↔ 0 < a.index := by
  simp [Album.has_prev]

theorem navStep_files (a : AlbumState) (s : NavStep) : (navStep a s).files = a.files := by
  cases s <;>
    simp only [navStep, Album.goto_next, Album.goto_prev, Album.setIndex, Album.display] <;>
    split <;> (try split) <;> rfl

theorem setIndex_eq (a : AlbumState) (v : ℤ) :
    Album.setIndex a v =
      if v = a.index then a else ⟨a.files, v, 0, a.displayCount + 1⟩ := by
  by_cases h : v = a.index
  · simp [Album.setIndex, h]
  · simp [Album.setIndex, h, Album.display]

theorem goto_next_changes_iff (a : AlbumState) :
    Album.has_next a = true ↔ (Album.goto_next a).index ≠ a.index := by
  by_cases h : Album.has_next a = true
  · simp only [h, true_iff, Album.goto_next, if_true, setIndex_eq]
    rw [if_neg (by omega)]
    simp only []
    omega
  · simp only [h, Bool.false_eq_true, false_iff, ne_eq, not_not, Album.goto_next]
    simp [h]

theorem goto_prev_changes_iff (a : AlbumState) :
    Album.has_prev a = true ↔ (Album.goto_prev a).index ≠ a.index := by
  by_cases h : Album.has_prev a = true
  · simp only [h, true_iff, Album.goto_prev, if_true, setIndex_eq]
    rw [if_neg (by omega)]
    simp only []
    omega
  · simp only [h, Bool.false_eq_true, false_iff, ne_eq, not_not, Album.goto_prev]
    simp [h]

theorem navStep_index_bounds (a : AlbumState) (s : NavStep)
    (h0 : 0 ≤ a.index) (h1 : a.index ≤ (a.files.length : ℤ) - 1) :
    0 ≤ (navStep a s).index ∧ (navStep a s).index ≤ (a.files.length : ℤ) - 1 := by
  cases s
  · simp only [navStep]
    by_cases h : Album.has_next a = true
    · have hb := (has_next_iff a).mp h
      simp only [h, if_true, Album.goto_next, setIndex_eq]
      rw [if_neg (by omega)]
      constructor <;> simp <;> omega
    · simp [h, h0, h1]
  · simp only [navStep]
    by_cases h : Album.has_prev a = true
    · have hb := (has_prev_iff a).mp h
      simp only [h, if_true, Album.goto_prev, setIndex_eq]
      rw [if_neg (by omega)]
      constructor <;> simp <;> omega
    · simp [h, h0, h1]

theorem navFold_index_bounds (steps : List NavStep) :
    ∀ a : AlbumState, 0 ≤ a.index → a.index ≤ (a.files.length : ℤ) - 1 →
      0 ≤ (steps.foldl navStep a).index ∧
        (steps.foldl navStep a).index ≤ ((steps.foldl navStep a).files.length : ℤ) - 1 := by
  induction steps with
  | nil => intro a h0 h1; exact ⟨h0, h1⟩
  | cons s rest ih =>
    intro a h0 h1
    have hb := navStep_index_bounds a s h0 h1
    have hf := navStep_files a s
    exact ih (navStep a s) hb.1 (by rw [hf]; exact hb.2)

/-- Claim C8: along any sequence of guarded `goto_next`/`goto_prev`
calls from a valid index on a list of `N ≥ 1` files, the index stays in
`[0, N-1]`, and at every state `has_next` (resp. `has_prev`) holds
exactly when the next `goto_next` (resp. `goto_prev`) call changes the
index. -/
theorem nav_bounds_and_predicates (a0 : AlbumState) (_hN : 1 ≤ a0.files.length)
    (h0 : 0 ≤ a0.index) (h1 : a0.index ≤ (a0.files.length : ℤ) - 1)
    (steps : List NavStep) :
    (0 ≤ (steps.foldl navStep a0).index ∧
      (steps.foldl navStep a0).index ≤ ((steps.foldl navStep a0).files.length : ℤ) - 1)
    ∧ (Album.has_next (steps.foldl navStep a0) = true ↔
        (Album.goto_next (steps.foldl navStep a0)).index ≠ (steps.foldl navStep a0).index)
    ∧ (Album.has_prev (steps.foldl navStep a0) = true ↔
        (Album.goto_prev (steps.foldl navStep a0)).index ≠ (steps.foldl navStep a0).index) :=
  ⟨navFold_index_bounds steps a0 h0 h1,
    goto_next_changes_iff _, goto_prev_changes_iff _⟩

/-- Witness for C8: a concrete instantiation (four files, start at
index 0, one `next` then one `prev` step). -/
theorem nav_bounds_and_predicates_witness :
    (0 ≤ ([NavStep.next, NavStep.prev].foldl navStep
        (Album.initial [⟨"/a", "a", ""⟩, ⟨"/b", "b", ""⟩] 0)).index ∧
      ([NavStep.next, NavStep.prev].foldl navStep
        (Album.initial [⟨"/a", "a", ""⟩, ⟨"/b", "b", ""⟩] 0)).index ≤
        ((([NavStep.next, NavStep.prev].foldl navStep
          (Album.initial [⟨"/a", "a", ""⟩, ⟨"/b", "b", ""⟩] 0)).files.length : ℤ) - 1))
    ∧ (Album.has_next ([NavStep.next, NavStep.prev].foldl navStep
          (Album.initial [⟨"/a", "a", ""⟩, ⟨"/b", "b", ""⟩] 0)) = true ↔
        (Album.goto_next ([NavStep.next, NavStep.prev].foldl navStep
          (Album.initial [⟨"/a", "a", ""⟩, ⟨"/b", "b", ""⟩] 0))).index ≠
          ([NavStep.next, NavStep.prev].foldl navStep
            (Album.initial [⟨"/a", "a", ""⟩, ⟨"/b", "b", ""⟩] 0)).index)
    ∧ (Album.has_prev ([NavStep.next, NavStep.prev].foldl navStep
          (Album.initial [⟨"/a", "a", ""⟩, ⟨"/b", "b", ""⟩] 0)) = true ↔
        (Album.goto_prev ([NavStep.next, NavStep.prev].foldl navStep
          (Album.initial [⟨"/a", "a", ""⟩, ⟨"/b", "b", ""⟩] 0))).index ≠
          ([NavStep.next, NavStep.prev].foldl navStep
            (Album.initial [⟨"/a", "a", ""⟩, ⟨"/b", "b", ""⟩] 0)).index) :=
  nav_bounds_and_predicates (Album.initial [⟨"/a", "a", ""⟩, ⟨"/b", "b", ""⟩] 0)
    (by decide) (by decide) (by decide) [NavStep.next, NavStep.prev]

theorem zoomStep_zin_bounds (a : AlbumState)
    (h0 : 0 ≤ a.zoom_level) (h1 : a.zoom_level ≤ 11) :
    0 ≤ (zoomStep a ZoomStep.zin).zoom_level ∧ (zoomStep a ZoomStep.zin).zoom_level ≤ 11 := by
  simp only [zoomStep]
  by_cases h : Album.can_zoom_in a = true
  · have hb : a.zoom_level ≤ 10 := by
      have := of_decide_eq_true h
      omega
    simp [h, Album.zoom_in, Album.display]
    omega
  · simp [h, h0, h1]

theorem zoomStep_zout_bounds (a : AlbumState)
    (h0 : 0 ≤ a.zoom_level) (h1 : a.zoom_level ≤ 11) :
    0 ≤ (zoomStep a ZoomStep.zout).zoom_level ∧ (zoomStep a ZoomStep.zout).zoom_level ≤ 11 := by
  simp only [zoomStep]
  by_cases h : Album.can_zoom_out a = true
  · have hb : 0 < a.zoom_level := of_decide_eq_true h
    simp [h, Album.zoom_out, Album.display]
    omega
  · simp [h, h0, h1]

theorem zoomFold_bounds (steps : List ZoomStep) :
    ∀ a : AlbumState, 0 ≤ a.zoom_level → a.zoom_level ≤ 11 →
      0 ≤ (steps.foldl zoomStep a).zoom_level ∧ (steps.foldl zoomStep a).zoom_level ≤ 11 := by
  induction steps with
  | nil => intro a h0 h1; exact ⟨h0, h1⟩
  | cons s rest ih =>
    intro a h0 h1
    have hb : 0 ≤ (zoomStep a s).zoom_level ∧ (zoomStep a s).zoom_level ≤ 11 := by
      cases s
      · exact zoomStep_zin_bounds a h0 h1
      · exact zoomStep_zout_bounds a h0 h1
    exact ih (zoomStep a s) hb.1 hb.2

theorem zoomFold_replicate_zin (n : ℕ) :
    ∀ a : AlbumState, a.zoom_level + n ≤ 11 →
      ((List.replicate n ZoomStep.zin).foldl zoomStep a).zoom_level = a.zoom_level + n := by
  induction n with
  | zero => intro a _; simp
  | succ m ih =>
    intro a h
    rw [List.replicate_succ, List.foldl_cons]
    have hcan : Album.can_zoom_in a = true := decide_eq_true (by omega)
    have hstep : (zoomStep a ZoomStep.zin).zoom_level = a.zoom_level + 1 := by
      simp [zoomStep, hcan, Album.zoom_in, Album.display]
    rw [ih (zoomStep a ZoomStep.zin) (by omega), hstep]
    omega

/-- Claim C3 (amended): along any sequence of guarded zoom calls from
zoom level 0 the zoom level stays in `[0, 11]` (not `[0, 10]`:
`can_zoom_in` is `10 >= zoom`, so a guarded `zoom_in` from 10 still
fires); 11 guarded `zoom_in` calls from 0 leave the zoom level at 11;
and a guarded `zoom_out` from 0 changes nothing. -/
theorem guarded_zoom_bounds (a0 : AlbumState) (h0 : a0.zoom_level = 0)
    (steps : List ZoomStep) :
    (0 ≤ (steps.foldl zoomStep a0).zoom_level ∧ (steps.foldl zoomStep a0).zoom_level ≤ 11)
    ∧ ((List.replicate 11 ZoomStep.zin).foldl zoomStep a0).zoom_level = 11
    ∧ zoomStep a0 ZoomStep.zout = a0 := by
  refine ⟨zoomFold_bounds steps a0 (by omega) (by omega), ?_, ?_⟩
  · rw [zoomFold_replicate_zin 11 a0 (by omega)]
    omega
  · have h : Album.can_zoom_out a0 = false := by
      simp [Album.can_zoom_out, h0]
    simp [zoomStep, h]

/-- Witness for C3's amended theorem at a concrete initial state. -/
theorem guarded_zoom_bounds_witness :
    (0 ≤ ([ZoomStep.zout].foldl zoomStep (Album.initial [] 0)).zoom_level ∧
      ([ZoomStep.zout].foldl zoomStep (Album.initial [] 0)).zoom_level ≤ 11)
    ∧ ((List.replicate 11 ZoomStep.zin).foldl zoomStep (Album.initial [] 0)).zoom_level = 11
    ∧ zoomStep (Album.initial [] 0) ZoomStep.zout = Album.initial [] 0 :=
  guarded_zoom_bounds (Album.initial [] 0) (by decide) [ZoomStep.zout]

/-- Counterexample to Claim C3 as stated: 11 guarded `zoom_in` calls
from zoom level 0 leave the zoom level at 11, not 10, so the level does
not stay within `[0, 10]`. -/
theorem guarded_zoom_in_escapes_ten :
    ((List.replicate 11 ZoomStep.zin).foldl zoomStep (Album.initial [] 0)).zoom_level = 11
    ∧ ¬(((List.replicate 11 ZoomStep.zin).foldl zoomStep (Album.initial [] 0)).zoom_level ≤ 10) := by
  decide

/-- Claim C9: the index setter acts only when the value changes; on a
change it stores the value, resets the zoom level and triggers exactly
one redisplay; `goto_first` from index 0 is a no-op (as is `goto_last`
from the last index), and `goto_next` from `(index = 2, zoom = 5)`
yields `(index = 3, zoom = 0)`. -/
theorem index_setter_contract :
    (∀ (a : AlbumState) (v : ℤ), v = a.index → Album.setIndex a v = a)
    ∧ (∀ (a : AlbumState) (v : ℤ), v ≠ a.index →
        (Album.setIndex a v).index = v ∧ (Album.setIndex a v).zoom_level = 0 ∧
          (Album.setIndex a v).displayCount = a.displayCount + 1)
    ∧ (∀ a : AlbumState, a.index = 0 → Album.goto_first a = a)
    ∧ (∀ a : AlbumState, a.index ≠ 0 →
        (Album.goto_first a).index = 0 ∧ (Album.goto_first a).zoom_level = 0 ∧
          (Album.goto_first a).displayCount = a.displayCount + 1)
    ∧ (∀ a : AlbumState, a.index = (a.files.length : ℤ) - 1 → Album.goto_last a = a)
    ∧ (∀ a : AlbumState, a.index = 2 → a.zoom_level = 5 → Album.has_next a = true →
        (Album.goto_next a).index = 3 ∧ (Album.goto_next a).zoom_level = 0 ∧
          (Album.goto_next a).displayCount = a.displayCount + 1) := by
  refine ⟨?_, ?_, ?_, ?_, ?_, ?_⟩
  · intro a v h
    rw [setIndex_eq, if_pos h]
  · intro a v h
    rw [setIndex_eq, if_neg h]
    exact ⟨rfl, rfl, rfl⟩
  · intro a h
    rw [Album.goto_first, setIndex_eq, if_pos h.symm]
  · intro a h
    rw [Album.goto_first, setIndex_eq, if_neg (fun hh => h hh.symm)]
    exact ⟨rfl, rfl, rfl⟩
  · intro a h
    rw [Album.goto_last, setIndex_eq, if_pos h.symm]
  · intro a h2 _h5 hn
    rw [Album.goto_next, if_pos hn, setIndex_eq, if_neg (by omega)]
    refine ⟨by simp [h2], rfl, rfl⟩

/-- Witness for C9 at concrete states. -/
theorem index_setter_contract_witness :
    Album.setIndex (Album.initial [] 0) 0 = Album.initial [] 0 ∧
      Album.goto_first (Album.initial [] 0) = Album.initial [] 0 :=
  ⟨index_setter_contract.1 (Album.initial [] 0) 0 (by decide),
    index_setter_contract.2.2.1 (Album.initial [] 0) (by decide)⟩

/-- The album state after loading an empty directory: no files,
index 0. -/
def emptyAlbum : AlbumState := Album.initial [] 0

/-- Counterexample to Claim C10 as stated: after `goto_last` on the
empty list (which does set the index to -1), `remaining` returns 0, not
-1 (`remaining` is -1 only before the call, while the index is still
0). -/
theorem goto_last_empty_remaining_zero :
    Album.remaining (Album.goto_last emptyAlbum) = 0
    ∧ Album.remaining (Album.goto_last emptyAlbum) ≠ -1 := by
  decide

/-- Claim C10 (amended): on an empty file list `goto_last` sets the
index to -1 (the "only act if changed" guard passes because -1 differs
from the initial index 0); `remaining` is -1 before that call and 0
after it; afterwards the current-image lookup has no valid element; and
the `[0, N-1]` index bound is not maintained. -/
theorem goto_last_empty_contract :
    (Album.goto_last emptyAlbum).index = -1
    ∧ Album.remaining emptyAlbum = -1
    ∧ Album.remaining (Album.goto_last emptyAlbum) = 0
    ∧ Album.current (Album.goto_last emptyAlbum) = none
    ∧ ¬(0 ≤ (Album.goto_last emptyAlbum).index) := by
  decide

/-! ### Worker and scaler theorems -/

theorem ite_gt_min (a b : ℤ) : (if a > b then b else a) = min a b := by
  rw [min_def]
  split <;> split <;> omega

/-- Claim C7: a worker run (with a successful window-size measurement)
resizes exactly when the zoom-adjusted source height exceeds the window
height minus the 60-pixel menu band or the zoom level is nonzero; when
it resizes it creates the temp file and invokes the resize command with
target width `min(source width, window width)` and target height
`min(source height, window height - 60)`; otherwise the result is the
original file path and no temp file is created; and in either case the
run sets the done flag exactly once, at the end. -/
theorem run_contract (w : Worker) (wstatus : ℤ) (wout : String) (tmp : String) (ww wh : ℕ)
    (htemp : w.tempFile = none)
    (hmeas : measureWxH "kitty icat --print-window-size" wstatus wout = .ok (ww, wh)) :
    ((ImageScalerThread.run w wstatus wout tmp).2.count RunEvent.setDone = 1)
    ∧ (∃ wfin, (ImageScalerThread.run w wstatus wout tmp).1 = .ok wfin ∧ wfin.done = true)
    ∧ (((w.iHeight : ℤ) > (wh : ℤ) - menu_height ∨ w.zoom ≠ 0) →
        (ImageScalerThread.run w wstatus wout tmp).2 =
          [RunEvent.createTemp tmp,
           RunEvent.invokeResize w.file.path (min (w.iWidth : ℤ) (ww : ℤ))
             (min (w.iHeight : ℤ) ((wh : ℤ) - menu_height)) tmp,
           RunEvent.setDone]
        ∧ ∃ wfin, (ImageScalerThread.run w wstatus wout tmp).1 = .ok wfin ∧
            wfin.tempFile = some tmp ∧ wfin.scaled = some tmp)
    ∧ (¬((w.iHeight : ℤ) > (wh : ℤ) - menu_height ∨ w.zoom ≠ 0) →
        (ImageScalerThread.run w wstatus wout tmp).2 = [RunEvent.setDone]
        ∧ ∃ wfin, (ImageScalerThread.run w wstatus wout tmp).1 = .ok wfin ∧
            wfin.tempFile = none ∧ wfin.scaled = some w.file.path) := by
  by_cases hc : (w.iHeight : ℤ) > (wh : ℤ) - menu_height ∨ w.zoom ≠ 0
  · simp only [ImageScalerThread.run, hmeas]
    rw [if_pos hc, ite_gt_min, ite_gt_min]
    exact ⟨rfl, ⟨_, rfl, rfl⟩, fun _ => ⟨rfl, ⟨_, rfl, rfl, rfl⟩⟩, fun h => absurd hc h⟩
  · simp only [ImageScalerThread.run, hmeas]
    rw [if_neg hc]
    exact ⟨rfl, ⟨_, rfl, rfl⟩, fun h => absurd h hc, fun _ => ⟨rfl, ⟨_, rfl, htemp, rfl⟩⟩⟩

/-- Witness for C7: a 100×100 image in an 80×80 window at zoom 0
(resize branch: 100 > 80 - 60). -/
theorem run_contract_witness :
    ((ImageScalerThread.run (ImageScalerThread.init ⟨"/d/i.png", "i.png", ".png"⟩ 100 100 0)
        0 "80x80" "/tmp/t0").2.count RunEvent.setDone = 1)
    ∧ (∃ wfin, (ImageScalerThread.run (ImageScalerThread.init ⟨"/d/i.png", "i.png", ".png"⟩ 100 100 0)
        0 "80x80" "/tmp/t0").1 = .ok wfin ∧ wfin.done = true)
    ∧ ((((ImageScalerThread.init ⟨"/d/i.png", "i.png", ".png"⟩ 100 100 0).iHeight : ℤ) >
          (80 : ℤ) - menu_height ∨
        (ImageScalerThread.init ⟨"/d/i.png", "i.png", ".png"⟩ 100 100 0).zoom ≠ 0) →
        (ImageScalerThread.run (ImageScalerThread.init ⟨"/d/i.png", "i.png", ".png"⟩ 100 100 0)
            0 "80x80" "/tmp/t0").2 =
          [RunEvent.createTemp "/tmp/t0",
           RunEvent.invokeResize (ImageScalerThread.init ⟨"/d/i.png", "i.png", ".png"⟩ 100 100 0).file.path
             (min ((ImageScalerThread.init ⟨"/d/i.png", "i.png", ".png"⟩ 100 100 0).iWidth : ℤ) ((80 : ℕ) : ℤ))
             (min ((ImageScalerThread.init ⟨"/d/i.png", "i.png", ".png"⟩ 100 100 0).iHeight : ℤ)
               (((80 : ℕ) : ℤ) - menu_height)) "/tmp/t0",
           RunEvent.setDone]
        ∧ ∃ wfin, (ImageScalerThread.run (ImageScalerThread.init ⟨"/d/i.png", "i.png", ".png"⟩ 100 100 0)
            0 "80x80" "/tmp/t0").1 = .ok wfin ∧
            wfin.tempFile = some "/tmp/t0" ∧ wfin.scaled = some "/tmp/t0")
    ∧ (¬(((ImageScalerThread.init ⟨"/d/i.png", "i.png", ".png"⟩ 100 100 0).iHeight : ℤ) >
          ((80 : ℕ) : ℤ) - menu_height ∨
        (ImageScalerThread.init ⟨"/d/i.png", "i.png", ".png"⟩ 100 100 0).zoom ≠ 0) →
        (ImageScalerThread.run (ImageScalerThread.init ⟨"/d/i.png", "i.png", ".png"⟩ 100 100 0)
            0 "80x80" "/tmp/t0").2 = [RunEvent.setDone]
        ∧ ∃ wfin, (ImageScalerThread.run (ImageScalerThread.init ⟨"/d/i.png", "i.png", ".png"⟩ 100 100 0)
            0 "80x80" "/tmp/t0").1 = .ok wfin ∧ wfin.tempFile = none ∧
            wfin.scaled = some (ImageScalerThread.init ⟨"/d/i.png", "i.png", ".png"⟩ 100 100 0).file.path) :=
  run_contract (ImageScalerThread.init ⟨"/d/i.png", "i.png", ".png"⟩ 100 100 0) 0 "80x80" "/tmp/t0"
    80 80 (by decide) (by rfl)

/-- Claim C2: when the dimension-measurement command exits with a
nonzero status, `scale` raises `ScalingError` and returns the store
exactly as it was (no entry added, no worker created). -/
theorem scale_measure_failure (store : Store) (file : PyFile) (zoom : ℕ)
    (status : ℤ) (out : String) (h : status ≠ 0) :
    ImageScaler.scale store file zoom status out =
      (.error (.scalingError
        ("Command \"" ++ identifyCmd file ++ "\" failed with exit code " ++ toString status)),
       store) := by
  have hm : measureWxH (identifyCmd file) status out =
      .error (.scalingError
        ("Command \"" ++ identifyCmd file ++ "\" failed with exit code " ++ toString status)) := by
    simp [measureWxH, get_w_x_h, h, Except.bind]
  simp [ImageScaler.scale, hm]

/-- Witness for C2: exit status 1 on an arbitrary concrete store. -/
theorem scale_measure_failure_witness :
    ImageScaler.scale [] ⟨"/d/i.png", "i.png", ".png"⟩ 0 1 "" =
      (.error (.scalingError
        ("Command \"" ++ identifyCmd ⟨"/d/i.png", "i.png", ".png"⟩ ++
          "\" failed with exit code " ++ toString (1 : ℤ))),
       []) :=
  scale_measure_failure [] ⟨"/d/i.png", "i.png", ".png"⟩ 0 1 "" (by decide)

theorem lookup_none_not_mem (k : String) :
    ∀ s : Store, s.lookup k = none → k ∉ s.map Prod.fst := by
  intro s
  induction s with
  | nil => intro _; simp
  | cons p t ih =>
    obtain ⟨a, b⟩ := p
    intro h
    by_cases hk : k = a
    · simp [List.lookup, hk] at h
    · have ht : t.lookup k = none := by
        simpa [List.lookup, beq_false_of_ne hk] using h
      simp only [List.map_cons, List.mem_cons]
      rintro (rfl | hmem)
      · exact hk rfl
      · exact ih ht hmem

theorem lookup_append_singleton (k : String) (w : Worker) :
    ∀ s : Store, s.lookup k = none → (s ++ [(k, w)]).lookup k = some w := by
  intro s
  induction s with
  | nil => intro _; simp [List.lookup]
  | cons p t ih =>
    obtain ⟨a, b⟩ := p
    intro h
    by_cases hk : k = a
    · simp [List.lookup, hk] at h
    · have ht : t.lookup k = none := by
        simpa [List.lookup, beq_false_of_ne hk] using h
      simpa [List.lookup, beq_false_of_ne hk] using ih ht

theorem stop_keys_sublist (s : Store) (id : String) :
    ((ImageScaler.stop s id).map Prod.fst).Sublist (s.map Prod.fst) := by
  have h1 : (ImageScaler.stop s id).Sublist
      (s.map (fun p => if p.1 = id then (p.1, ThreadMixin.stop p.2) else p)) :=
    List.filter_sublist _
  have h2 : (s.map (fun p => if p.1 = id then (p.1, ThreadMixin.stop p.2) else p)).map Prod.fst
      = s.map Prod.fst := by
    rw [List.map_map]
    refine List.map_congr_left ?_
    intro p _
    by_cases hp : p.1 = id <;> simp [hp]
  have := h1.map Prod.fst
  rwa [h2] at this

/-- Claim C1: if a worker is already stored under the fingerprint that
`scale` computes, `scale` returns that fingerprint with the store
unchanged (no second worker is created or started); repeating a `scale`
call with the same file, zoom and measurement outcome returns the same
fingerprint and leaves the store unchanged (idempotence); and every
reachable store holds at most one worker per fingerprint (its key list
is duplicate-free). -/
theorem scale_at_most_one_worker :
    (∀ (s : Store) (f : PyFile) (z : ℕ) (st : ℤ) (out : String) (id : String) (s' : Store),
        ImageScaler.scale s f z st out = (.ok id, s') → (s.lookup id).isSome = true → s' = s)
    ∧ (∀ (s : Store) (f : PyFile) (z : ℕ) (st : ℤ) (out : String),
        ImageScaler.scale (ImageScaler.scale s f z st out).2 f z st out =
          ((ImageScaler.scale s f z st out).1, (ImageScaler.scale s f z st out).2))
    ∧ (∀ s : Store, ScalerReachable s → (s.map Prod.fst).Nodup) := by
  refine ⟨?_, ?_, ?_⟩
  · intro s f z st out id s' heq hsome
    cases hm : measureWxH (identifyCmd f) st out with
    | error e => simp [ImageScaler.scale, hm] at heq
    | ok wh0 =>
      obtain ⟨w0, h0⟩ := wh0
      by_cases hl : ((s.lookup (fingerprint f (scaleDims z w0 h0).1 (scaleDims z w0 h0).2)).isSome
          = true)
      · simp only [ImageScaler.scale, hm, hl, if_true, Prod.mk.injEq] at heq
        exact heq.2.symm
      · simp only [ImageScaler.scale, hm, hl, if_false, Prod.mk.injEq, Except.ok.injEq,
          Bool.false_eq_true] at heq
        obtain ⟨hid, _⟩ := heq
        rw [← hid] at hsome
        exact absurd hsome hl
  · intro s f z st out
    cases hm : measureWxH (identifyCmd f) st out with
    | error e => simp [ImageScaler.scale, hm]
    | ok wh0 =>
      obtain ⟨w0, h0⟩ := wh0
      by_cases hl : ((s.lookup (fingerprint f (scaleDims z w0 h0).1 (scaleDims z w0 h0).2)).isSome
          = true)
      · simp [ImageScaler.scale, hm, hl]
      · have hnone := Option.not_isSome_iff_eq_none.mp hl
        have hfound := lookup_append_singleton
          (fingerprint f (scaleDims z w0 h0).1 (scaleDims z w0 h0).2)
          (ImageScalerThread.init f (scaleDims z w0 h0).2 (scaleDims z w0 h0).1 z) s hnone
        simp [ImageScaler.scale, hm, hl, hfound]
  · intro s hreach
    induction hreach with
    | init => simp
    | scale s f z st out _ ih =>
      cases hm : measureWxH (identifyCmd f) st out with
      | error e => simpa [ImageScaler.scale, hm] using ih
      | ok wh0 =>
        obtain ⟨w0, h0⟩ := wh0
        by_cases hl : ((s.lookup (fingerprint f (scaleDims z w0 h0).1
            (scaleDims z w0 h0).2)).isSome = true)
        · simpa [ImageScaler.scale, hm, hl] using ih
        · have hnone := Option.not_isSome_iff_eq_none.mp hl
          simp only [ImageScaler.scale, hm, hl, if_false, List.map_append, List.map_cons,
            List.map_nil, Bool.false_eq_true]
          rw [List.nodup_append]
          exact ⟨ih, List.nodup_singleton _,
            by simpa using fun hmem => lookup_none_not_mem _ s hnone hmem⟩
    | stop s id _ ih => exact (stop_keys_sublist s id).nodup ih
    | teardown s _ _ => simp [ImageScaler.teardown]

def fileA : PyFile := ⟨"/d/img.png", "img.png", ".png"⟩

def storeA : Store := [(fingerprint fileA 5 7, ImageScalerThread.init fileA 7 5 0)]

/-- Witness for C1: a concrete store already holding the fingerprint of
a 5×7 image at zoom 0; `scale` leaves it unchanged, and the empty
reachable store has duplicate-free keys. -/
theorem scale_at_most_one_worker_witness :
    (ImageScaler.scale storeA fileA 0 0 "5x7").2 = storeA
    ∧ (([] : Store).map Prod.fst).Nodup :=
  ⟨scale_at_most_one_worker.1 storeA fileA 0 0 "5x7" (fingerprint fileA 5 7)
      (ImageScaler.scale storeA fileA 0 0 "5x7").2 (by rfl) (by decide),
    scale_at_most_one_worker.2.2 [] ScalerReachable.init⟩

def fileC : PyFile := ⟨"/d/c.png", "c.png", ".png"⟩

/-- A worker mid-resize: its `run` created the temp file and invoked the
external resize, and is still polling (`done = false`,
`stopped = false`). -/
def runningWorker : Worker :=
  { ImageScalerThread.init fileC 100 100 0 with
    tempFile := some "/tmp/t1", scaled := some "/tmp/t1" }

/-- Claim C4 (evaluation at the failing input): `teardown` on a store
holding a still-running worker empties the store and closes the worker's
temp-file handle, but never signals the worker to stop — its `stopped`
flag stays `false` (and `done` is still `false`), contradicting the
claim (and `teardown`'s own docstring, "stop all scaling threads"). -/
theorem teardown_leaves_worker_unstopped :
    (ImageScaler.teardown [(fingerprint fileC 100 100, runningWorker)]).1 = []
    ∧ (ImageScaler.teardown [(fingerprint fileC 100 100, runningWorker)]).2.map
        (fun w => w.stopped) = [false]
    ∧ (ImageScaler.teardown [(fingerprint fileC 100 100, runningWorker)]).2.map
        (fun w => w.done) = [false]
    ∧ (ImageScaler.teardown [(fingerprint fileC 100 100, runningWorker)]).2.map
        (fun w => w.tempClosed) = [true] := by
  decide

/-! ### Fingerprint theorems -/

theorem toDigitsCore_eq_digits :
    ∀ (fuel n : ℕ) (ds : List Char), 1 ≤ n → n ≤ fuel →
      Nat.toDigitsCore 10 fuel n ds = ((Nat.digits 10 n).reverse.map Nat.digitChar) ++ ds := by
  intro fuel
  induction fuel with
  | zero => intro n ds h1 h2; omega
  | succ m ih =>
    intro n ds h1 h2
    have hdig : Nat.digits 10 n = n % 10 :: Nat.digits 10 (n / 10) :=
      Nat.digits_def' (by norm_num) (by omega)
    by_cases hz : n / 10 = 0
    · have : Nat.toDigitsCore 10 (m + 1) n ds = Nat.digitChar (n % 10) :: ds := by
        simp [Nat.toDigitsCore, hz]
      rw [this, hdig, hz]
      simp
    · have hstep : Nat.toDigitsCore 10 (m + 1) n ds =
          Nat.toDigitsCore 10 m (n / 10) (Nat.digitChar (n % 10) :: ds) := by
        simp [Nat.toDigitsCore, hz]
      rw [hstep, ih (n / 10) _ (by omega) (by omega), hdig]
      simp

theorem repr_data_eq_digits (n : ℕ) (h : 1 ≤ n) :
    (Nat.repr n).data = (Nat.digits 10 n).reverse.map Nat.digitChar := by
  show (Nat.toDigits 10 n).asString.data = _
  rw [Nat.toDigits, toDigitsCore_eq_digits (n + 1) n [] h (by omega)]
  simp [List.asString]

theorem digitChar_inj_lt : ∀ d1 < 10, ∀ d2 < 10,
    Nat.digitChar d1 = Nat.digitChar d2 → d1 = d2 := by
  decide

theorem digitChar_ne_underscore : ∀ d < 10, Nat.digitChar d ≠ '_' := by
  decide

theorem repr_underscore_free (n : ℕ) : '_' ∉ (Nat.repr n).data := by
  cases n with
  | zero => decide
  | succ m =>
    rw [repr_data_eq_digits (m + 1) (by omega)]
    intro hmem
    obtain ⟨d, hd, heq⟩ := List.mem_map.mp hmem
    have hlt : d < 10 := Nat.digits_lt_base (by norm_num) (List.mem_reverse.mp hd)
    exact digitChar_ne_underscore d hlt heq

theorem map_digitChar_inj :
    ∀ (l1 l2 : List ℕ), (∀ d ∈ l1, d < 10) → (∀ d ∈ l2, d < 10) →
      l1.map Nat.digitChar = l2.map Nat.digitChar → l1 = l2 := by
  intro l1
  induction l1 with
  | nil => intro l2 _ _ h; cases l2 <;> simp_all
  | cons c t ih =>
    intro l2 hb1 hb2 h
    cases l2 with
    | nil => simp at h
    | cons c2 t2 =>
      simp only [List.map_cons, List.cons.injEq] at h
      have hc : c = c2 := digitChar_inj_lt c (hb1 c (by simp)) c2 (hb2 c2 (by simp)) h.1
      have ht : t = t2 := ih t2 (fun d hd => hb1 d (by simp [hd]))
        (fun d hd => hb2 d (by simp [hd])) h.2
      rw [hc, ht]

theorem repr_data_injective (m n : ℕ) (h : (Nat.repr m).data = (Nat.repr n).data) : m = n := by
  have main : ∀ k j : ℕ, 1 ≤ k → (Nat.repr k).data = (Nat.repr j).data → j ≠ 0 := by
    intro k j hk heq hj0
    subst hj0
    rw [repr_data_eq_digits k hk] at heq
    have h0 : (Nat.repr 0).data = ['0'] := by decide
    rw [h0] at heq
    have : Nat.digits 10 k = [0] := by
      have hrev : (Nat.digits 10 k).reverse.map Nat.digitChar = List.map Nat.digitChar [0] := by
        rw [heq]; decide
      have := map_digitChar_inj (Nat.digits 10 k).reverse [0]
        (fun d hd => Nat.digits_lt_base (by norm_num) (List.mem_reverse.mp hd))
        (by intro d hd; simp at hd; omega) hrev
      rw [← List.reverse_inj]
      rw [this]
      decide
    have hlast := Nat.getLast_digit_ne_zero 10 (m := k) (by omega)
    simp [this] at hlast
  rcases Nat.eq_zero_or_pos m with hm | hm
  · rcases Nat.eq_zero_or_pos n with hn | hn
    · rw [hm, hn]
    · exact absurd hm (main n m hn h.symm)
  · rcases Nat.eq_zero_or_pos n with hn | hn
    · exact absurd hn (main m n hm h)
    · have h1 := repr_data_eq_digits m hm
      have h2 := repr_data_eq_digits n hn
      rw [h1, h2] at h
      have hrev := map_digitChar_inj (Nat.digits 10 m).reverse (Nat.digits 10 n).reverse
        (fun d hd => Nat.digits_lt_base (by norm_num) (List.mem_reverse.mp hd))
        (fun d hd => Nat.digits_lt_base (by norm_num) (List.mem_reverse.mp hd)) h
      have hd : Nat.digits 10 m = Nat.digits 10 n := List.reverse_inj.mp hrev
      have hfin := congrArg (Nat.ofDigits 10) hd
      rwa [Nat.ofDigits_digits, Nat.ofDigits_digits] at hfin

theorem underscore_split :
    ∀ (l1 : List Char) (l2 r1 r2 : List Char), '_' ∉ l1 → '_' ∉ l2 →
      l1 ++ '_' :: r1 = l2 ++ '_' :: r2 → l1 = l2 ∧ r1 = r2 := by
  intro l1
  induction l1 with
  | nil =>
    intro l2 r1 r2 _ hu2 h
    cases l2 with
    | nil => simpa using h
    | cons c2 t2 =>
      simp only [List.nil_append, List.cons_append, List.cons.injEq] at h
      obtain ⟨hc, -⟩ := h
      exact absurd (show ('_' : Char) ∈ c2 :: t2 by simp [← hc]) hu2
  | cons c t ih =>
    intro l2 r1 r2 hu1 hu2 h
    cases l2 with
    | nil =>
      simp only [List.cons_append, List.nil_append, List.cons.injEq] at h
      exact absurd (by simp [h.1]) hu1
    | cons c2 t2 =>
      simp only [List.cons_append, List.cons.injEq] at h
      have ht := ih t2 r1 r2 (fun hm => hu1 (by simp [hm])) (fun hm => hu2 (by simp [hm])) h.2
      exact ⟨by rw [h.1, ht.1], ht.2⟩

theorem repr_reverse_underscore_free (n : ℕ) : '_' ∉ (Nat.repr n).data.reverse := by
  intro h
  exact repr_underscore_free n (List.mem_reverse.mp h)

/-- Claim C6 (amended): the fingerprint uniquely identifies the triple
(display name, zoom-adjusted width, zoom-adjusted height): two requests
get equal fingerprints exactly when those three components coincide.
It does not identify the file itself (distinct files sharing a display
name collide), and two zoom levels whose adjusted dimensions coincide
(e.g. zoom 0 and zoom 3 on a 1×1 image) share a fingerprint. -/
theorem fingerprint_injective (f1 f2 : PyFile) (w1 h1 w2 h2 : ℕ) :
    fingerprint f1 w1 h1 = fingerprint f2 w2 h2 ↔
      f1.name = f2.name ∧ w1 = w2 ∧ h1 = h2 := by
  constructor
  · intro h
    have hdata := congrArg (fun s : String => s.data.reverse) h
    simp only [fingerprint, String.data_append, List.reverse_append, List.append_assoc] at hdata
    have hrev : (Nat.repr h1).data.reverse ++ '_' :: ((Nat.repr w1).data.reverse
          ++ '_' :: f1.name.data.reverse) =
        (Nat.repr h2).data.reverse ++ '_' :: ((Nat.repr w2).data.reverse
          ++ '_' :: f2.name.data.reverse) := by
      simpa using hdata
    have hs1 := underscore_split (Nat.repr h1).data.reverse (Nat.repr h2).data.reverse
      ((Nat.repr w1).data.reverse ++ '_' :: f1.name.data.reverse)
      ((Nat.repr w2).data.reverse ++ '_' :: f2.name.data.reverse)
      (repr_reverse_underscore_free h1) (repr_reverse_underscore_free h2) hrev
    have hs2 := underscore_split (Nat.repr w1).data.reverse (Nat.repr w2).data.reverse
      f1.name.data.reverse f2.name.data.reverse
      (repr_reverse_underscore_free w1) (repr_reverse_underscore_free w2) hs1.2
    refine ⟨String.ext (List.reverse_inj.mp hs2.2), ?_, ?_⟩
    · exact repr_data_injective w1 w2 (List.reverse_inj.mp hs2.1)
    · exact repr_data_injective h1 h2 (List.reverse_inj.mp hs1.1)
  · rintro ⟨hn, rfl, rfl⟩
    simp [fingerprint, hn]

def fileU : PyFile := ⟨"/p/a.png", "a.png", ".png"⟩

def fileV : PyFile := ⟨"/q/a.png", "a.png", ".png"⟩

set_option maxRecDepth 8000 in
/-- Counterexample to Claim C6 as stated: two distinct files (the same
image name in two different directories) with the same native
dimensions get the same fingerprint even though their contents need not
be pixel-identical; and on a 1×1 image, `scale` at zoom 0 and at zoom 3
return the same fingerprint (the zoom-3 adjustment of 1 is still 1),
where the claim says those fingerprints differ. -/
theorem fingerprint_collision :
    (fileU ≠ fileV ∧ fingerprint fileU 5 7 = fingerprint fileV 5 7)
    ∧ (ImageScaler.scale [] fileV 0 0 "1x1").1 = Except.ok (fingerprint fileV 1 1)
    ∧ (ImageScaler.scale [] fileV 3 0 "1x1").1 = Except.ok (fingerprint fileV 1 1) :=
  ⟨by decide, rfl, rfl⟩

/-! ### Correctness of the binary64 model's rounding -/

/-- Value of a dyadic pair. -/
def dval (p : ℕ × ℤ) : ℚ := (p.1 : ℚ) * 2 ^ p.2

theorem log2f_correct : ∀ (fuel n : ℕ), 1 ≤ n → n ≤ fuel →
    2 ^ log2f fuel n ≤ n ∧ n < 2 ^ (log2f fuel n + 1) := by
  intro fuel
  induction fuel with
  | zero => intro n h1 h2; omega
  | succ m ih =>
    intro n h1 h2
    by_cases h : 2 ≤ n
    · have hrec : log2f (m + 1) n = log2f m (n / 2) + 1 := by
        simp [log2f, h]
      have hd1 : 1 ≤ n / 2 := by omega
      have hd2 : n / 2 ≤ m := by omega
      obtain ⟨hl, hu⟩ := ih (n / 2) hd1 hd2
      rw [hrec]
      set A := 2 ^ log2f m (n / 2) with hA
      have hp1 : 2 ^ (log2f m (n / 2) + 1) = A * 2 := by rw [pow_succ]
      have hp2 : 2 ^ (log2f m (n / 2) + 1 + 1) = A * 2 * 2 := by rw [pow_succ, pow_succ]
      rw [hp1, hp2]
      omega
    · have h1' : n = 1 := by omega
      subst h1'
      simp [log2f]

theorem natLog2_correct (n : ℕ) (h : 1 ≤ n) :
    2 ^ natLog2 n ≤ n ∧ n < 2 ^ (natLog2 n + 1) :=
  log2f_correct n n h le_rfl

theorem two_zpow_nonneg_eq (e : ℤ) (he : 0 ≤ e) : (2 : ℚ) ^ e = ((2 ^ e.toNat : ℕ) : ℚ) := by
  rw [← Int.toNat_of_nonneg he, zpow_natCast]
  push_cast
  rfl

theorem two_zpow_mul_le_iff (k : ℤ) (x y : ℕ) :
    (2 : ℚ) ^ k * x ≤ y ↔
      (if 0 ≤ k then 2 ^ k.toNat * x ≤ y else x ≤ 2 ^ (-k).toNat * y) := by
  split
  case isTrue h =>
    rw [two_zpow_nonneg_eq k h]
    exact_mod_cast Iff.rfl
  case isFalse h =>
    have hk : (2 : ℚ) ^ k = ((2 ^ (-k).toNat : ℕ) : ℚ)⁻¹ := by
      rw [← zpow_neg_one, ← two_zpow_nonneg_eq (-k) (by omega)]
      rw [← zpow_mul]
      norm_num
    rw [hk]
    have hpos : (0 : ℚ) < ((2 ^ (-k).toNat : ℕ) : ℚ) := by positivity
    rw [inv_mul_le_iff₀ hpos]
    constructor
    · intro hle
      exact_mod_cast hle
    · intro hle
      exact_mod_cast hle

theorem lt_two_zpow_mul_iff (k : ℤ) (x y : ℕ) :
    (x : ℚ) < 2 ^ k * y ↔
      (if 0 ≤ k then x < 2 ^ k.toNat * y else 2 ^ (-k).toNat * x < y) := by
  split
  case isTrue h =>
    rw [two_zpow_nonneg_eq k h]
    exact_mod_cast Iff.rfl
  case isFalse h =>
    have hk : (2 : ℚ) ^ k = ((2 ^ (-k).toNat : ℕ) : ℚ)⁻¹ := by
      rw [← zpow_neg_one, ← two_zpow_nonneg_eq (-k) (by omega)]
      rw [← zpow_mul]
      norm_num
    rw [hk]
    have hpos : (0 : ℚ) < ((2 ^ (-k).toNat : ℕ) : ℚ) := by positivity
    rw [lt_inv_mul_iff₀ hpos]
    constructor
    · intro hle
      exact_mod_cast hle
    · intro hle
      exact_mod_cast hle

theorem ratLog2_bounds (num den : ℕ) (hn : 1 ≤ num) (hd : 1 ≤ den) :
    (2 : ℚ) ^ ratLog2 num den * den ≤ num ∧ (num : ℚ) < 2 ^ (ratLog2 num den + 1) * den := by
  have ha := natLog2_correct num hn
  have hb := natLog2_correct den hd
  rw [ratLog2]
  obtain ⟨ha1, ha2⟩ := ha
  obtain ⟨hb1, hb2⟩ := hb
  set a := natLog2 num with hA
  set b := natLog2 den with hB
  split
  case isTrue hsign =>
    have htC : ((a : ℤ) - b).toNat = a - b := by omega
    split
    case isTrue hC =>
      rw [htC] at hC
      constructor
      · rw [two_zpow_mul_le_iff, if_pos hsign, htC]
        rwa [mul_comm] at hC
      · rw [lt_two_zpow_mul_iff, if_pos (by omega)]
        have ht : ((a : ℤ) - b + 1).toNat = a - b + 1 := by omega
        rw [ht]
        calc num < 2 ^ (a + 1) := ha2
          _ = 2 ^ (a - b + 1) * 2 ^ b := by rw [← pow_add]; congr 1; omega
          _ ≤ 2 ^ (a - b + 1) * den := Nat.mul_le_mul_left _ hb1
    case isFalse hC =>
      rw [htC] at hC
      constructor
      · rw [two_zpow_mul_le_iff]
        by_cases hs2 : (0 : ℤ) ≤ (a : ℤ) - b - 1
        · rw [if_pos hs2]
          have ht : ((a : ℤ) - b - 1).toNat = a - b - 1 := by omega
          rw [ht]
          have hlt : 2 ^ (a - b - 1) * den < 2 ^ a := by
            calc 2 ^ (a - b - 1) * den < 2 ^ (a - b - 1) * 2 ^ (b + 1) :=
                  mul_lt_mul_of_pos_left hb2 (by positivity)
              _ = 2 ^ a := by rw [← pow_add]; congr 1; omega
          omega
        · rw [if_neg hs2]
          have hab : a = b := by omega
          have ht : (-((a : ℤ) - b - 1)).toNat = 1 := by omega
          rw [ht]
          have h1 : den < 2 ^ (a + 1) := by rw [hab]; exact hb2
          have h2 : 2 ^ (a + 1) = 2 * 2 ^ a := by ring
          have h3 : 2 ^ a ≤ num := ha1
          simp only [pow_one]
          omega
      · rw [lt_two_zpow_mul_iff, if_pos (by omega)]
        have ht : ((a : ℤ) - b - 1 + 1).toNat = a - b := by omega
        rw [ht, mul_comm]
        omega
  case isFalse hsign =>
    have htC : (-((a : ℤ) - b)).toNat = b - a := by omega
    split
    case isTrue hC =>
      rw [htC] at hC
      constructor
      · rw [two_zpow_mul_le_iff, if_neg (by omega), htC]
        rwa [mul_comm] at hC
      · rw [lt_two_zpow_mul_iff]
        by_cases hs2 : (0 : ℤ) ≤ (a : ℤ) - b + 1
        · rw [if_pos hs2]
          have hab : b = a + 1 := by omega
          have ht : ((a : ℤ) - b + 1).toNat = 0 := by omega
          rw [ht]
          have h1 : num < 2 ^ b := by rw [hab]; exact ha2
          have h2 : 2 ^ b ≤ den := hb1
          simp only [pow_zero, one_mul]
          omega
        · rw [if_neg hs2]
          have ht : (-((a : ℤ) - b + 1)).toNat = b - a - 1 := by omega
          rw [ht]
          have hlt : 2 ^ (b - a - 1) * num < 2 ^ b := by
            calc 2 ^ (b - a - 1) * num < 2 ^ (b - a - 1) * 2 ^ (a + 1) :=
                  mul_lt_mul_of_pos_left ha2 (by positivity)
              _ = 2 ^ b := by rw [← pow_add]; congr 1; omega
          omega
    case isFalse hC =>
      rw [htC] at hC
      constructor
      · rw [two_zpow_mul_le_iff, if_neg (by omega)]
        have ht : (-((a : ℤ) - b - 1)).toNat = b - a + 1 := by omega
        rw [ht]
        have hle : den < 2 ^ (b - a + 1) * num := by
          calc den < 2 ^ (b + 1) := hb2
            _ = 2 ^ (b - a + 1) * 2 ^ a := by rw [← pow_add]; congr 1; omega
            _ ≤ 2 ^ (b - a + 1) * num := Nat.mul_le_mul_left _ ha1
        omega
      · rw [lt_two_zpow_mul_iff, if_neg (by omega)]
        have ht : (-((a : ℤ) - b - 1 + 1)).toNat = b - a := by omega
        rw [ht, mul_comm]
        omega

theorem rdivNE_err (a d : ℕ) (hd : 0 < d) :
    |(rdivNE a d : ℚ) - (a : ℚ) / d| ≤ 1 / 2 := by
  have hd0 : ((d : ℚ)) ≠ 0 := by positivity
  have hdpos : (0 : ℚ) < d := by positivity
  have hmod := Nat.div_add_mod a d
  have hr : a % d < d := Nat.mod_lt a hd
  have hcast := congrArg (fun x : ℕ => (x : ℚ) / d) hmod
  push_cast at hcast
  have hkey : (a : ℚ) / d = (a / d : ℕ) + ((a % d : ℕ) : ℚ) / d := by
    rw [← hcast, add_div, mul_div_cancel_left₀ _ hd0]
  rw [rdivNE]
  split
  case isTrue h =>
    rw [hkey]
    have h1 : ((a % d : ℕ) : ℚ) / d < 1 / 2 := by
      rw [div_lt_div_iff₀ hdpos (by norm_num)]
      have : (((a % d) : ℕ) : ℚ) * 2 < d := by exact_mod_cast (by omega : a % d * 2 < d)
      linarith
    have h2 : (0 : ℚ) ≤ ((a % d : ℕ) : ℚ) / d := by positivity
    rw [abs_le]
    constructor <;> linarith
  case isFalse h =>
    split
    case isTrue h2 =>
      rw [hkey]
      have h1 : 1 / 2 < ((a % d : ℕ) : ℚ) / d := by
        rw [div_lt_div_iff₀ (by norm_num) hdpos]
        have : (d : ℚ) < ((a % d : ℕ) : ℚ) * 2 := by exact_mod_cast (by omega : d < a % d * 2)
        linarith
      have h3 : ((a % d : ℕ) : ℚ) / d < 1 := by
        rw [div_lt_one hdpos]
        exact_mod_cast hr
      push_cast
      rw [abs_le]
      constructor <;> linarith
    case isFalse h2 =>
      have heq : ((a % d : ℕ) : ℚ) / d = 1 / 2 := by
        rw [div_eq_div_iff hd0 (by norm_num : (2 : ℚ) ≠ 0)]
        exact_mod_cast (by omega : a % d * 2 = 1 * d)
      split <;>
        · rw [hkey, heq]
          push_cast
          rw [abs_le]
          constructor <;> linarith

theorem fl_grid_err (q : ℚ) (n : ℕ) (e : ℤ)
    (herr : |(n : ℚ) - q * 2 ^ (-e)| ≤ 1 / 2) :
    |(n : ℚ) * 2 ^ e - q| ≤ 2 ^ (e - 1) := by
  have h2e : (0 : ℚ) < 2 ^ e := by positivity
  have hsplit : (n : ℚ) * 2 ^ e - q = ((n : ℚ) - q * 2 ^ (-e)) * 2 ^ e := by
    rw [sub_mul, zpow_neg, mul_assoc, inv_mul_cancel₀ (by positivity : (2 : ℚ) ^ e ≠ 0), mul_one]
  rw [hsplit, abs_mul, abs_of_pos h2e]
  calc |(n : ℚ) - q * 2 ^ (-e)| * 2 ^ e ≤ (1 / 2) * 2 ^ e :=
        mul_le_mul_of_nonneg_right herr (le_of_lt h2e)
    _ = 2 ^ (e - 1) := by
        rw [zpow_sub₀ (by norm_num : (2 : ℚ) ≠ 0), zpow_one]
        ring

theorem two_pow_toNat (e : ℤ) (he : 0 ≤ e) : (2 : ℚ) ^ e.toNat = (2 : ℚ) ^ e := by
  rw [← zpow_natCast, Int.toNat_of_nonneg he]

theorem two_zpow_53 : (2 : ℚ) ^ (53 : ℤ) = 2 ^ (53 : ℕ) := by
  rw [← two_pow_toNat 53 (by norm_num), show ((53 : ℤ).toNat) = 53 from rfl]

theorem flPair_err (num den : ℕ) (hn : 1 ≤ num) (hd : 1 ≤ den) :
    |dval (flPair num den) - (num : ℚ) / den| ≤ ((num : ℚ) / den) / 2 ^ (53 : ℕ) := by
  have hdq : (0 : ℚ) < (den : ℚ) := by positivity
  obtain ⟨hlow, _⟩ := ratLog2_bounds num den hn hd
  have hlow' : (2 : ℚ) ^ ratLog2 num den ≤ (num : ℚ) / den := by
    rw [le_div_iff₀ hdq]
    exact hlow
  have hend : (2 : ℚ) ^ (ratLog2 num den - 52 - 1) ≤ ((num : ℚ) / den) / 2 ^ (53 : ℕ) := by
    calc (2 : ℚ) ^ (ratLog2 num den - 52 - 1)
        = 2 ^ ratLog2 num den * 2 ^ (-(53 : ℤ)) := by
          rw [← zpow_add₀ (by norm_num : (2 : ℚ) ≠ 0)]
          congr 1
          omega
      _ ≤ ((num : ℚ) / den) * 2 ^ (-(53 : ℤ)) :=
          mul_le_mul_of_nonneg_right hlow' (by positivity)
      _ = ((num : ℚ) / den) / 2 ^ (53 : ℕ) := by
          rw [zpow_neg, two_zpow_53]
          ring
  rw [flPair, if_neg (by omega : ¬num = 0)]
  split
  case isTrue he =>
    have hD : 0 < den * 2 ^ ((ratLog2 num den - 52).toNat) := by positivity
    have herr := rdivNE_err num (den * 2 ^ ((ratLog2 num den - 52).toNat)) hD
    have hkey : (num : ℚ) / ((den * 2 ^ ((ratLog2 num den - 52).toNat) : ℕ) : ℚ) =
        ((num : ℚ) / den) * 2 ^ (-(ratLog2 num den - 52)) := by
      rw [zpow_neg]
      push_cast
      rw [two_pow_toNat _ he, div_mul_eq_div_div, div_eq_mul_inv ((num : ℚ) / den)]
    rw [hkey] at herr
    exact (fl_grid_err ((num : ℚ) / den) _ (ratLog2 num den - 52) herr).trans hend
  case isFalse he =>
    have herr := rdivNE_err (num * 2 ^ ((-(ratLog2 num den - 52)).toNat)) den
      (by positivity)
    have hkey : ((num * 2 ^ ((-(ratLog2 num den - 52)).toNat) : ℕ) : ℚ) / den =
        ((num : ℚ) / den) * 2 ^ (-(ratLog2 num den - 52)) := by
      push_cast
      rw [two_pow_toNat _ (by omega : (0 : ℤ) ≤ -(ratLog2 num den - 52))]
      ring
    rw [hkey] at herr
    exact (fl_grid_err ((num : ℚ) / den) _ (ratLog2 num den - 52) herr).trans hend

theorem rdivNE_one (a : ℕ) : rdivNE a 1 = a := by
  rw [rdivNE]
  simp [Nat.mod_one, Nat.div_one]

theorem flPair_int_exact (m : ℕ) (hm1 : 1 ≤ m) (hm : m < 2 ^ 53) :
    dval (flPair m 1) = m := by
  obtain ⟨hlow, _⟩ := ratLog2_bounds m 1 hm1 le_rfl
  rw [Nat.cast_one, mul_one] at hlow
  have hl52 : ratLog2 m 1 ≤ 52 := by
    by_contra hcon
    push_neg at hcon
    have h53 : (2 : ℚ) ^ (53 : ℤ) ≤ 2 ^ ratLog2 m 1 :=
      zpow_le_zpow_right₀ (by norm_num) hcon
    have h2 : (2 : ℚ) ^ (53 : ℤ) = ((2 ^ 53 : ℕ) : ℚ) := by
      rw [two_zpow_53]
      norm_cast
    have hle : ((2 ^ 53 : ℕ) : ℚ) ≤ (m : ℚ) := h2 ▸ h53.trans hlow
    have : (2 ^ 53 : ℕ) ≤ m := by exact_mod_cast hle
    omega
  rw [flPair, if_neg (by omega : ¬m = 0)]
  split
  case isTrue he =>
    have he0 : ratLog2 m 1 - 52 = 0 := by omega
    rw [dval]
    simp only [he0, Int.toNat_zero, pow_zero, mul_one, one_mul, rdivNE_one, zpow_zero]
  case isFalse he =>
    rw [dval]
    simp only [rdivNE_one]
    push_cast
    rw [two_pow_toNat _ (by omega : (0 : ℤ) ≤ -(ratLog2 m 1 - 52)), mul_assoc,
      ← zpow_add₀ (by norm_num : (2 : ℚ) ≠ 0)]
    norm_num

theorem flDyadic_err (n : ℕ) (e : ℤ) (hn : 1 ≤ n) :
    |dval (flDyadic n e) - (n : ℚ) * 2 ^ e| ≤ ((n : ℚ) * 2 ^ e) / 2 ^ (53 : ℕ) := by
  have hbase := flPair_err n 1 hn le_rfl
  rw [Nat.cast_one, div_one] at hbase
  have h2e : (0 : ℚ) < 2 ^ e := by positivity
  have hval : dval (flDyadic n e) = dval (flPair n 1) * 2 ^ e := by
    rw [flDyadic, dval, dval]
    rw [zpow_add₀ (by norm_num : (2 : ℚ) ≠ 0), mul_assoc]
  rw [hval]
  have hsplit : dval (flPair n 1) * 2 ^ e - (n : ℚ) * 2 ^ e =
      (dval (flPair n 1) - n) * 2 ^ e := by ring
  rw [hsplit, abs_mul, abs_of_pos h2e]
  calc |dval (flPair n 1) - (n : ℚ)| * 2 ^ e ≤ ((n : ℚ) / 2 ^ (53 : ℕ)) * 2 ^ e :=
        mul_le_mul_of_nonneg_right hbase (le_of_lt h2e)
    _ = ((n : ℚ) * 2 ^ e) / 2 ^ (53 : ℕ) := by ring

theorem dval_dyadicAdd (p q : ℕ × ℤ) : dval (dyadicAdd p q) = dval p + dval q := by
  rw [dyadicAdd, dval, dval, dval]
  set m2 := min p.2 q.2 with hm2
  have hmp : m2 ≤ p.2 := min_le_left _ _
  have hmq : m2 ≤ q.2 := min_le_right _ _
  push_cast
  rw [two_pow_toNat (p.2 - m2) (sub_nonneg.mpr hmp),
    two_pow_toNat (q.2 - m2) (sub_nonneg.mpr hmq)]
  rw [add_mul, mul_assoc, mul_assoc,
    ← zpow_add₀ (by norm_num : (2 : ℚ) ≠ 0), ← zpow_add₀ (by norm_num : (2 : ℚ) ≠ 0)]
  congr 2 <;> ring_nf

theorem dyadicFloor_eq (p : ℕ × ℤ) : dyadicFloor p = ⌊dval p⌋₊ := by
  rw [dyadicFloor, dval]
  split
  case isTrue he =>
    rw [show ((p.1 : ℚ) * 2 ^ p.2) = ((p.1 * 2 ^ p.2.toNat : ℕ) : ℚ) by
      push_cast
      rw [two_pow_toNat p.2 he]]
    rw [Nat.floor_natCast]
  case isFalse he =>
    have hneg : (2 : ℚ) ^ p.2 = (((2 ^ (-p.2).toNat : ℕ) : ℚ))⁻¹ := by
      push_cast
      rw [two_pow_toNat (-p.2) (by omega), ← zpow_neg]
      norm_num
    rw [hneg, ← div_eq_mul_inv, Nat.floor_div_nat, Nat.floor_natCast]

theorem specAdjust_eq_floor (b z : ℕ) :
    specAdjust b z = ⌊(b : ℚ) + ((b * z * 10 : ℕ) : ℚ) / 100⌋₊ := by
  rw [specAdjust]
  rw [add_comm ((b : ℚ)) _, Nat.floor_add_nat (by positivity),
    show ((100 : ℚ)) = ((100 : ℕ) : ℚ) by norm_num, Nat.floor_div_nat, Nat.floor_natCast]
  omega

theorem flPair_zero (d : ℕ) : flPair 0 d = (0, 0) := by
  rw [flPair]
  norm_num

theorem pyZoomAdjust_def (b z : ℕ) :
    pyZoomAdjust b z =
      dyadicFloor (flDyadic
        (dyadicAdd (flPair b 1)
          (flDyadic ((flPair b 100).1 * (z * 10)) (flPair b 100).2)).1
        (dyadicAdd (flPair b 1)
          (flDyadic ((flPair b 100).1 * (z * 10)) (flPair b 100).2)).2) := rfl

/-- The binary64 zoom adjustment stays within 1/16 of the exact value
for bases up to 2^46 and zoom up to 10, so it matches the truncated
exact value except possibly one below it at integral exact values. -/
theorem pyZoomAdjust_near_exact (b z : ℕ) (hb : b ≤ 2 ^ 46) (hz1 : 1 ≤ z) (hz10 : z ≤ 10) :
    pyZoomAdjust b z = specAdjust b z ∨
      (b * z % 10 = 0 ∧ (pyZoomAdjust b z : ℤ) = (specAdjust b z : ℤ) - 1) := by
  rcases Nat.eq_zero_or_pos b with rfl | hbpos
  · left
    rw [pyZoomAdjust_def]
    norm_num [flPair_zero, flDyadic, dyadicAdd, dyadicFloor, specAdjust]
  have hblt : b < 2 ^ 53 := lt_of_le_of_lt hb (by norm_num)
  set q1 := flPair b 100 with hq1def
  set p2 := flDyadic (q1.1 * (z * 10)) q1.2 with hp2def
  set s0 := dyadicAdd (flPair b 1) p2 with hs0def
  set sF := flDyadic s0.1 s0.2 with hsFdef
  have hpy : pyZoomAdjust b z = ⌊dval sF⌋₊ := by
    rw [pyZoomAdjust_def, dyadicFloor_eq]
  have hA := flPair_err b 100 hbpos (by norm_num)
  have hQpos : (0 : ℚ) < (b : ℚ) / 100 := by positivity
  have hApos : 0 < dval q1 := by
    rcases abs_le.mp hA with ⟨h1, _⟩
    linarith
  have hm1 : 1 ≤ q1.1 := by
    by_contra hq0
    push_neg at hq0
    have hq00 : q1.1 = 0 := by omega
    rw [dval, hq00] at hApos
    simp at hApos
  have hMq : (1 : ℚ) ≤ (z : ℚ) := by exact_mod_cast hz1
  have hMq10 : ((z : ℚ)) ≤ 10 := by exact_mod_cast hz10
  have hM0 : (0 : ℚ) ≤ (z : ℚ) * 10 := by positivity
  have hn2 : 1 ≤ q1.1 * (z * 10) := Nat.mul_pos hm1 (by omega)
  have hP := flDyadic_err (q1.1 * (z * 10)) q1.2 hn2
  have hPform : ((q1.1 * (z * 10) : ℕ) : ℚ) * 2 ^ q1.2 = dval q1 * ((z : ℚ) * 10) := by
    rw [dval]
    push_cast
    ring
  rw [hPform] at hP
  have hfb : dval (flPair b 1) = b := flPair_int_exact b hbpos hblt
  have hs0val : dval s0 = (b : ℚ) + dval p2 := by
    rw [hs0def, dval_dyadicAdd, hfb]
  set A := dval q1 with hAdef
  set P := dval p2 with hPdef
  set X := A * ((z : ℚ) * 10) with hXdef
  set Y := ((b : ℚ) / 100) * ((z : ℚ) * 10) with hYdef
  have hXpos : 0 < X := mul_pos hApos (by linarith)
  have hXY : |X - Y| ≤ Y / 2 ^ (53 : ℕ) := by
    have hXYform : X - Y = (A - (b : ℚ) / 100) * ((z : ℚ) * 10) := by rw [hXdef, hYdef]; ring
    rw [hXYform, abs_mul, abs_of_nonneg hM0]
    calc |A - (b : ℚ) / 100| * ((z : ℚ) * 10)
        ≤ (((b : ℚ) / 100) / 2 ^ (53 : ℕ)) * ((z : ℚ) * 10) :=
          mul_le_mul_of_nonneg_right hA hM0
      _ = Y / 2 ^ (53 : ℕ) := by rw [hYdef]; ring
  have hYpos : 0 < Y := by positivity
  have hYb : Y ≤ (b : ℚ) := by
    have hM100 : ((z : ℚ)) * 10 ≤ 100 := by linarith
    calc Y = ((b : ℚ) / 100) * ((z : ℚ) * 10) := rfl
      _ ≤ ((b : ℚ) / 100) * 100 := mul_le_mul_of_nonneg_left hM100 (by positivity)
      _ = (b : ℚ) := by ring
  have hbQ : (b : ℚ) ≤ 2 ^ 46 := by exact_mod_cast hb
  have hPX : |P - X| ≤ X / 2 ^ (53 : ℕ) := hP
  have hPpos : 0 ≤ P := by
    rcases abs_le.mp hPX with ⟨h1, _⟩
    linarith
  have hs0pos : (0 : ℚ) < dval s0 := by
    rw [hs0val]
    have hb1 : (1 : ℚ) ≤ (b : ℚ) := by exact_mod_cast hbpos
    linarith
  have hm3 : 1 ≤ s0.1 := by
    by_contra hs00
    push_neg at hs00
    have h0 : s0.1 = 0 := by omega
    rw [dval, h0] at hs0pos
    simp at hs0pos
  have hSform : ((s0.1 : ℕ) : ℚ) * 2 ^ s0.2 = dval s0 := rfl
  have hS := flDyadic_err s0.1 s0.2 hm3
  rw [hSform] at hS
  set S := dval s0 with hSdef
  set F := dval sF with hFdef
  set E := (b : ℚ) + ((b * z * 10 : ℕ) : ℚ) / 100 with hEdef
  clear_value q1 p2 s0 sF A P X Y S F E
  have hEY : E = (b : ℚ) + Y := by
    rw [hEdef, hYdef]
    push_cast
    ring
  have hSE : |S - E| ≤ (X + Y) / 2 ^ (53 : ℕ) := by
    have h1 : S - E = (P - X) + (X - Y) := by
      rw [hs0val, hEY]
      ring
    rw [h1]
    calc |(P - X) + (X - Y)| ≤ |P - X| + |X - Y| := abs_add _ _
      _ ≤ X / 2 ^ (53 : ℕ) + Y / 2 ^ (53 : ℕ) := add_le_add hPX hXY
      _ = (X + Y) / 2 ^ (53 : ℕ) := by ring
  have hXb : X ≤ 2 ^ 47 := by
    rcases abs_le.mp hXY with ⟨_, h2⟩
    linarith
  have hYb2 : Y ≤ 2 ^ 46 := le_trans hYb hbQ
  have hEb : E ≤ 2 ^ 47 := by
    rw [hEY]
    linarith
  have hSb : S ≤ 2 ^ 48 := by
    rcases abs_le.mp hSE with ⟨_, h2⟩
    linarith
  have hFS : |F - S| ≤ S / 2 ^ (53 : ℕ) := hS
  have hFE : |F - E| ≤ 1 / 16 := by
    rcases abs_le.mp hFS with ⟨hf1, hf2⟩
    rcases abs_le.mp hSE with ⟨hs1, hs2⟩
    rw [abs_le]
    constructor <;> linarith
  have hEpos : (1 : ℚ) ≤ E := by
    rw [hEY]
    have hb1 : (1 : ℚ) ≤ (b : ℚ) := by exact_mod_cast hbpos
    linarith
  have hFpos : (0 : ℚ) ≤ F := by
    rcases abs_le.mp hFE with ⟨h1, _⟩
    linarith
  -- decompose the exact value
  have hNval : specAdjust b z = b + b * z * 10 / 100 := rfl
  have hN1 : 1 ≤ specAdjust b z := by
    rw [hNval]
    omega
  have hmod := Nat.div_add_mod (b * z * 10) 100
  have hcast := congrArg (fun x : ℕ => (x : ℚ) / 100) hmod
  push_cast at hcast
  have hEsplit : E = ((specAdjust b z : ℕ) : ℚ) + (((b * z * 10) % 100 : ℕ) : ℚ) / 100 := by
    rw [hEdef, hNval]
    push_cast
    rw [← hcast]
    ring
  rcases abs_le.mp hFE with ⟨hFE1, hFE2⟩
  by_cases hr : b * z % 10 = 0
  · -- the exact value is an integer
    have hr100 : (b * z * 10) % 100 = 0 := by omega
    rw [hr100] at hEsplit
    norm_num at hEsplit
    by_cases hFN : ((specAdjust b z : ℕ) : ℚ) ≤ F
    · left
      rw [hpy]
      rw [Nat.floor_eq_iff hFpos]
      rw [hEsplit] at hFE2
      exact ⟨hFN, by linarith⟩
    · right
      push_neg at hFN
      refine ⟨hr, ?_⟩
      rw [hEsplit] at hFE1
      have hc : ((specAdjust b z - 1 : ℕ) : ℚ) = ((specAdjust b z : ℕ) : ℚ) - 1 := by
        push_cast [hN1]
        ring
      have hfl : ⌊F⌋₊ = specAdjust b z - 1 := by
        rw [Nat.floor_eq_iff hFpos]
        constructor
        · rw [hc]
          linarith
        · rw [hc]
          linarith
      rw [hpy, hfl]
      push_cast [hN1]
      ring
  · -- the exact value has fractional part in [1/10, 9/10]
    left
    have hrlow : 10 ≤ (b * z * 10) % 100 := by omega
    have hrhigh : (b * z * 10) % 100 ≤ 90 := by omega
    have hrlowq : (10 : ℚ) ≤ (((b * z * 10) % 100 : ℕ) : ℚ) := by exact_mod_cast hrlow
    have hrhighq : (((b * z * 10) % 100 : ℕ) : ℚ) ≤ 90 := by exact_mod_cast hrhigh
    rw [hpy]
    rw [Nat.floor_eq_iff hFpos]
    constructor
    · rw [hEsplit] at hFE1
      linarith
    · rw [hEsplit] at hFE2
      linarith

/-- Claim C5 (amended): `scale` leaves the dimensions untouched at
zoom 0; and for every base dimension up to 2^46 and zoom in [1, 10],
the binary64 value `int(b + b / 100 * (zoom * 10))` computed by `scale`
equals the integer-truncated exact value `b + b * zoom * 10 / 100`,
except possibly when the exact value is an integer (10 divides
`b * zoom`), where the computed value may land one below it.  The
unrestricted claim is false: at base 10^16 + 1 and zoom 10 the code
computes 2*10^16 while the exact truncated value is 2*10^16 + 2. -/
theorem scale_zoom_adjust_contract :
    (∀ w h : ℕ, scaleDims 0 w h = (w, h))
    ∧ (∀ b z : ℕ, b ≤ 2 ^ 46 → 1 ≤ z → z ≤ 10 →
        pyZoomAdjust b z = specAdjust b z ∨
          (b * z % 10 = 0 ∧ (pyZoomAdjust b z : ℤ) = (specAdjust b z : ℤ) - 1)) :=
  ⟨fun w h => by simp [scaleDims], pyZoomAdjust_near_exact⟩

/-- Witness for C5's amended theorem at concrete inputs. -/
theorem scale_zoom_adjust_contract_witness :
    scaleDims 0 5 7 = (5, 7) ∧
      (pyZoomAdjust 7 1 = specAdjust 7 1 ∨
        (7 * 1 % 10 = 0 ∧ (pyZoomAdjust 7 1 : ℤ) = (specAdjust 7 1 : ℤ) - 1)) :=
  ⟨scale_zoom_adjust_contract.1 5 7,
    scale_zoom_adjust_contract.2 7 1 (by norm_num) (by norm_num) (by norm_num)⟩

set_option maxRecDepth 8000 in
/-- Counterexample to Claim C5 as stated: at base 10^16 + 1 and zoom
10, the binary64 computation `int(b + b / 100 * (zoom * 10))` yields
2*10^16, while the integer-truncated exact value of
`b + b * zoom * 10 / 100` is 2*10^16 + 2 (the base no longer fits in
53 bits, so `b / 100` and the following operations round). -/
theorem pyZoomAdjust_ne_exact :
    pyZoomAdjust 10000000000000001 10 = 20000000000000000
    ∧ specAdjust 10000000000000001 10 = 20000000000000002
    ∧ pyZoomAdjust 10000000000000001 10 ≠ specAdjust 10000000000000001 10 := by
  decide
